import Mathlib

/-!
Shallow embedding of `src/math_util.py` (bayeslite math utilities).

Modelling conventions:
* Python floats are modelled by exact arithmetic: the generic sequence
  combinators (`relerr`, `abs_summation`, `limit`, `contStep`, `convRun`)
  are polymorphic over a `LinearOrderedField` and are instantiated at `ℚ`
  for executable claims and at `ℝ` for the incomplete gamma routines,
  which need `log`, `exp` and `Gamma`.
* Python generators are modelled as streams: `Nat → Option α` for
  possibly-exhausted sequences (with `none` marking exhaustion, as a
  generator raising `StopIteration`), and `Nat → α` / state machines for
  the generators that are infinite by construction.
* Loops whose termination depends on a convergence predicate are given a
  `fuel` parameter; running out of fuel is the distinguished outcome
  `Outcome.timeout`, which corresponds to the Python loop simply not
  having terminated yet.
* A Python function that falls off the end of its body returns `None`,
  modelled by `Outcome.retNone`; a failed `assert` is
  `Outcome.assertFail`; calling `.next()` on an exhausted generator is
  `Outcome.stopIter`.
* The mutual recursion between `gamma_below` and `gamma_above` carries an
  explicit recursion-depth budget `dep`; exhausting it is
  `Outcome.depthOut`.  The Python code has no such budget, so a result of
  `.depthOut` at any finite budget would reveal a delegation cycle.
* The machine constants are those the probe computes for IEEE binary64:
  `EMAX = 1023`, `EPSILON = 2⁻⁵²`, `EPSINV = 2⁵²`,
  `MAXLOG = log 2 + log (2^1023)`.
* `math.lgamma a` is `Real.log |Real.Gamma a|`.
-/

/-- Result of running an embedded Python routine. -/
inductive Outcome (α : Type) : Type where
  | val : α → Outcome α
  | retNone : Outcome α
  | assertFail : Outcome α
  | stopIter : Outcome α
  | timeout : Outcome α
  | depthOut : Outcome α
  deriving DecidableEq

namespace Outcome

/-- Post-compose a pure function, preserving every failure mode
(in Python, an expression wrapped around a raising call propagates the
exception). -/
def map {α β : Type} (f : α → β) : Outcome α → Outcome β
  | .val a => .val (f a)
  | .retNone => .retNone
  | .assertFail => .assertFail
  | .stopIter => .stopIter
  | .timeout => .timeout
  | .depthOut => .depthOut

end Outcome

/-- `EMAX` as probed on IEEE binary64: largest exponent with `2^EMAX` finite. -/
def EMAX : ℕ := 1023

/-- `EPSILON` as probed on IEEE binary64: `1 + EPSILON/2 == 1` rounds down. -/
def EPSILON : ℚ := 1 / 2 ^ 52

/-- `EPSINV = 1/EPSILON`. -/
def EPSINV : ℚ := 2 ^ 52

/-- `EPSILON` at type `ℝ`, for the gamma routines. -/
noncomputable def EPSILONR : ℝ := 1 / 2 ^ 52

/-- `EPSINV` at type `ℝ`, for the gamma routines. -/
noncomputable def EPSINVR : ℝ := 2 ^ 52

/-- `MAXLOG = log 2 + log (2.**EMAX)`. -/
noncomputable def MAXLOG : ℝ := Real.log 2 + Real.log ((2 : ℝ) ^ EMAX)

/-- `relerr(expected, actual) = abs((actual - expected)/expected)`. -/
def relerr {α : Type} [LinearOrderedField α] (expected actual : α) : α :=
  |(actual - expected) / expected|

/-- The `for t in sequence` loop of `abs_summation`, reading the stream from
index `i` with running sum `s`. -/
def absLoop {α : Type} [LinearOrderedField α] (eps : α) (seq : ℕ → Option α) :
    ℕ → α → ℕ → Outcome α
  | _, _, 0 => .timeout
  | i, s, fuel + 1 =>
    match seq i with
    | none => .retNone
    | some t =>
      if 0 ≤ t then
        if t / (s + t) ≤ eps then .val (s + t)
        else absLoop eps seq (i + 1) (s + t) fuel
      else .assertFail

/-- `abs_summation(sequence)`: `s = sequence.next()` then the loop. -/
def abs_summation {α : Type} [LinearOrderedField α] (eps : α)
    (seq : ℕ → Option α) (fuel : ℕ) : Outcome α :=
  match seq 0 with
  | none => .stopIter
  | some s => absLoop eps seq 1 s fuel

/-- The `for c in sequence` loop of `limit`, with previous value `c0`. -/
def limitLoop {α : Type} [LinearOrderedField α] (eps : α) (seq : ℕ → Option α) :
    ℕ → α → ℕ → Outcome α
  | _, _, 0 => .timeout
  | i, c0, fuel + 1 =>
    match seq i with
    | none => .retNone
    | some c =>
      if c = 0 then .val c
      else if relerr c0 c ≤ eps then .val c
      else limitLoop eps seq (i + 1) c fuel

/-- `limit(sequence)`: `c0 = sequence.next()` then the loop. -/
def limit {α : Type} [LinearOrderedField α] (eps : α)
    (seq : ℕ → Option α) (fuel : ℕ) : Outcome α :=
  match seq 0 with
  | none => .stopIter
  | some c0 => limitLoop eps seq 1 c0 fuel

/-- A finite Python sequence as a stream. -/
def seqOfList {α : Type} (l : List α) : ℕ → Option α := fun i => l.get? i

/-- One step of the `continuants` loop: the simultaneous assignment
`p0, q0, p, q = p, q, d*p + n*p0, d*q + n*q0` followed by the rescale
guard `if p >= EPSINV or q >= EPSINV`.  The state is `(p0, q0, p, q)`. -/
def contStep {α : Type} [LinearOrderedField α] (epsinv eps : α)
    (st : α × α × α × α) (t : α × α) : α × α × α × α :=
  let p0 := st.1
  let q0 := st.2.1
  let p := st.2.2.1
  let q := st.2.2.2
  let n := t.1
  let d := t.2
  let pNew := d * p + n * p0
  let qNew := d * q + n * q0
  if epsinv ≤ pNew ∨ epsinv ≤ qNew then
    (p * eps, q * eps, pNew * eps, qNew * eps)
  else
    (p, q, pNew, qNew)

/-- The `continuants` loop state after consuming the first `k` terms,
starting from `p0, q0, p, q = 1, 0, 0, 1`. -/
def contState {α : Type} [LinearOrderedField α] (epsinv eps : α)
    (seq : ℕ → α × α) : ℕ → α × α × α × α
  | 0 => (1, 0, 0, 1)
  | k + 1 => contStep epsinv eps (contState epsinv eps seq k) (seq k)

/-- The pair `(p, q)` yielded by `continuants` after consuming term `k`
(0-based).  The `assert q != 0` before each yield is modelled by the side
predicate `contOk`. -/
def continuantAt {α : Type} [LinearOrderedField α] (epsinv eps : α)
    (seq : ℕ → α × α) (k : ℕ) : α × α :=
  ((contState epsinv eps seq (k + 1)).2.2.1, (contState epsinv eps seq (k + 1)).2.2.2)

/-- The `assert q != 0` of `continuants` has passed for every yield up to
and including the `k`-th. -/
def contOk {α : Type} [LinearOrderedField α] (epsinv eps : α)
    (seq : ℕ → α × α) (k : ℕ) : Prop :=
  ∀ i, i ≤ k → (continuantAt epsinv eps seq i).2 ≠ 0

/-- Control state of the `convergents` generator: still in the main
`for p, q in cs` loop holding the last retained continuant, or past the
`break` in the trailing `while True: yield c` loop. -/
inductive ConvState (α : Type) : Type where
  | looping : α → α → ConvState α
  | done : α → ConvState α

/-- The `convergents` generator, one output per step: output `0` is
`p0/q0` of the first continuant; in the looping state each step reads the
next continuant `(p, q)`, breaks to `done (p0/q0)` if `p == 0` and
otherwise yields `p/q`, retaining `(p, q)`; in the done state no further
continuant is read and the saved value is yielded forever.  Returns the
(control state, yielded value) after output `j`. -/
def convRun {α : Type} [LinearOrderedField α] (cs : ℕ → α × α) :
    ℕ → ConvState α × α
  | 0 => (.looping (cs 0).1 (cs 0).2, (cs 0).1 / (cs 0).2)
  | j + 1 =>
    match (convRun cs j).1 with
    | .done c => (.done c, c)
    | .looping p0 q0 =>
      if (cs (j + 1)).1 = 0 then (.done (p0 / q0), p0 / q0)
      else (.looping (cs (j + 1)).1 (cs (j + 1)).2, (cs (j + 1)).1 / (cs (j + 1)).2)

/-- `convergents(contfrac)`: the `j`-th value yielded by the generator,
which internally drives `continuants(contfrac)`. -/
def convergents {α : Type} [LinearOrderedField α] (epsinv eps : α)
    (seq : ℕ → α × α) (j : ℕ) : α :=
  (convRun (fun k => continuantAt epsinv eps seq k) j).2

/-- The rescale guard of `continuants` fires while consuming term `k`:
`p >= EPSINV or q >= EPSINV` on the freshly computed pair. -/
def rescaleTrigger {α : Type} [LinearOrderedField α] (epsinv eps : α)
    (seq : ℕ → α × α) (k : ℕ) : Prop :=
  let st := contState epsinv eps seq k
  epsinv ≤ (seq k).2 * st.2.2.1 + (seq k).1 * st.1 ∨
    epsinv ≤ (seq k).2 * st.2.2.2 + (seq k).1 * st.2.1

/-- Written from the spec's words (§3/§4.2): numerator continuants seeded
with `p_{-1} = 1`, `p_0 = 0` and recurrence `p_{k+1} = d_k·p_k + n_k·p_{k-1}`;
index `k` here holds `p_{k-2}` of the spec, so the first yielded
continuant's numerator is `specContinuantP seq 2`. -/
def specContinuantP {α : Type} [LinearOrderedField α] (seq : ℕ → α × α) : ℕ → α
  | 0 => 1
  | 1 => 0
  | k + 2 => (seq k).2 * specContinuantP seq (k + 1) + (seq k).1 * specContinuantP seq k

/-- Written from the spec's words (§3/§4.2): denominator continuants
seeded with `q_{-1} = 0`, `q_0 = 1`, same recurrence as `specContinuantP`. -/
def specContinuantQ {α : Type} [LinearOrderedField α] (seq : ℕ → α × α) : ℕ → α
  | 0 => 0
  | 1 => 1
  | k + 2 => (seq k).2 * specContinuantQ seq (k + 1) + (seq k).1 * specContinuantQ seq k

/-- Running sum of `abs_summation` after consuming list element `k`:
the sum of elements `0..k`. -/
def sumTo (l : List ℚ) (k : ℕ) : ℚ := (l.take (k + 1)).sum

/-- The power-series term generator `seq()` in `gamma_below`:
`t_0 = 1` and after the `k`-th yield `t *= x/(a + k)` with `k` already
incremented, so `t_{k+1} = t_k · x/(a + (k+1))`. -/
noncomputable def gbSeq (a x : ℝ) : ℕ → ℝ
  | 0 => 1
  | k + 1 => gbSeq a x k * (x / (a + (k + 1 : ℕ)))

/-- The continued-fraction term generator `contfrac()` in `gamma_above`:
first `(1, x)`, then for `i = 0, 1, 2, ...` either
`((i//2) + 1 - a, 1)` (even `i`) or `((i+1)//2, x)` (odd `i`). -/
noncomputable def gaTerm (a x : ℝ) : ℕ → ℝ × ℝ
  | 0 => (1, x)
  | j + 1 => if j % 2 = 0 then (((j / 2 : ℕ) : ℝ) + 1 - a, 1) else ((((j + 1) / 2 : ℕ) : ℝ), x)

/-- The non-delegating tail of `gamma_below` (power-series regime):
`w = a·log x - x - lgamma a`; underflow guard; then
`(m/a) * abs_summation(seq())`. -/
noncomputable def gamma_series (a x : ℝ) (fuel : ℕ) : Outcome ℝ :=
  let w := a * Real.log x - x - Real.log |Real.Gamma a|
  if w < -MAXLOG then .val 0
  else
    (abs_summation EPSILONR (fun k => some (gbSeq a x k)) fuel).map
      (fun s => Real.exp w / a * s)

/-- The non-delegating tail of `gamma_above` (continued-fraction regime):
same prefactor and underflow guard, then
`m * limit(convergents(contfrac()))`. -/
noncomputable def gamma_frac (a x : ℝ) (fuel : ℕ) : Outcome ℝ :=
  let w := a * Real.log x - x - Real.log |Real.Gamma a|
  if w < -MAXLOG then .val 0
  else
    (limit EPSILONR (fun j => some (convergents EPSINVR EPSILONR (gaTerm a x) j)) fuel).map
      (fun c => Real.exp w * c)

mutual

/-- `gamma_below(a, x)`: asserts `0 < a` and `0 <= x`; returns `0` at
`x == 0`; delegates to `1 - gamma_above(a, x)` when `x > max(1, a)`;
otherwise evaluates the power series.  `dep` budgets the mutual
delegation (the Python code has no budget; see `Outcome.depthOut`). -/
noncomputable def gamma_below (dep : ℕ) (a x : ℝ) (fuel : ℕ) : Outcome ℝ :=
  if 0 < a then
    if 0 ≤ x then
      if x = 0 then .val 0
      else if max 1 a < x then
        if dep = 0 then .depthOut
        else (gamma_above (dep - 1) a x fuel).map (fun g => 1 - g)
      else gamma_series a x fuel
    else .assertFail
  else .assertFail
termination_by dep
decreasing_by simp_wf; omega

/-- `gamma_above(a, x)`: asserts `0 < a` and `0 <= x`; delegates to
`1 - gamma_below(a, x)` when `x <= max(1, a)`; otherwise evaluates the
continued fraction.  `dep` budgets the mutual delegation. -/
noncomputable def gamma_above (dep : ℕ) (a x : ℝ) (fuel : ℕ) : Outcome ℝ :=
  if 0 < a then
    if 0 ≤ x then
      if x ≤ max 1 a then
        if dep = 0 then .depthOut
        else (gamma_below (dep - 1) a x fuel).map (fun g => 1 - g)
      else gamma_frac a x fuel
    else .assertFail
  else .assertFail
termination_by dep
decreasing_by simp_wf; omega

end

-- Sanity checks (kept as `example`s; they name no claim theorem).
example : abs_summation EPSILON (seqOfList [(1 : ℚ), 1]) 2 = .retNone := by
  norm_num [abs_summation, absLoop, seqOfList, EPSILON]
example : limit EPSILON (seqOfList [(1 : ℚ), 5]) 2 = .retNone := by
  norm_num [limit, limitLoop, relerr, seqOfList, EPSILON]
example : relerr (2 : ℚ) (10001 / 5000) = 1 / 10000 := by
  norm_num [relerr]
example : continuantAt EPSINV EPSILON (fun _ => ((1 : ℚ), 1)) 2 = (2, 3) := by
  norm_num [continuantAt, contState, contStep, EPSINV, EPSILON]
example : convergents EPSINV EPSILON (fun _ => ((1 : ℚ), 1)) 2 = 2 / 3 := by
  norm_num [convergents, convRun, continuantAt, contState, contStep, EPSINV, EPSILON]

theorem Outcome.map_eq_depthOut_iff {α β : Type} (f : α → β) (o : Outcome α) :
    o.map f = .depthOut ↔ o = .depthOut := by
  cases o <;> simp [Outcome.map]

theorem absLoop_ne_depthOut {α : Type} [LinearOrderedField α] (eps : α)
    (seq : ℕ → Option α) :
    ∀ (fuel i : ℕ) (s : α), absLoop eps seq i s fuel ≠ .depthOut := by
  intro fuel
  induction fuel with
  | zero => intro i s; simp [absLoop]
  | succ n ih =>
    intro i s
    simp only [absLoop]
    cases hseq : seq i with
    | none => simp
    | some t =>
      simp only []
      split_ifs <;> simp [ih]

theorem abs_summation_ne_depthOut {α : Type} [LinearOrderedField α] (eps : α)
    (seq : ℕ → Option α) (fuel : ℕ) :
    abs_summation eps seq fuel ≠ .depthOut := by
  unfold abs_summation
  cases hseq : seq 0 with
  | none => simp
  | some s => exact absLoop_ne_depthOut eps seq fuel 1 s

theorem limitLoop_ne_depthOut {α : Type} [LinearOrderedField α] (eps : α)
    (seq : ℕ → Option α) :
    ∀ (fuel i : ℕ) (c0 : α), limitLoop eps seq i c0 fuel ≠ .depthOut := by
  intro fuel
  induction fuel with
  | zero => intro i c0; simp [limitLoop]
  | succ n ih =>
    intro i c0
    simp only [limitLoop]
    cases hseq : seq i with
    | none => simp
    | some c =>
      simp only []
      split_ifs <;> simp [ih]

theorem limit_ne_depthOut {α : Type} [LinearOrderedField α] (eps : α)
    (seq : ℕ → Option α) (fuel : ℕ) :
    limit eps seq fuel ≠ .depthOut := by
  unfold limit
  cases hseq : seq 0 with
  | none => simp
  | some c0 => exact limitLoop_ne_depthOut eps seq fuel 1 c0

theorem gamma_series_ne_depthOut (a x : ℝ) (fuel : ℕ) :
    gamma_series a x fuel ≠ .depthOut := by
  simp only [gamma_series]
  split_ifs with h
  · simp
  · intro hc
    rw [Outcome.map_eq_depthOut_iff] at hc
    exact abs_summation_ne_depthOut _ _ _ hc

theorem gamma_frac_ne_depthOut (a x : ℝ) (fuel : ℕ) :
    gamma_frac a x fuel ≠ .depthOut := by
  simp only [gamma_frac]
  split_ifs with h
  · simp
  · intro hc
    rw [Outcome.map_eq_depthOut_iff] at hc
    exact limit_ne_depthOut _ _ _ hc

theorem gamma_above_nondelegate (dep : ℕ) (a x : ℝ) (fuel : ℕ)
    (ha : 0 < a) (hx : max 1 a < x) :
    gamma_above dep a x fuel = gamma_frac a x fuel := by
  have hx0 : (0 : ℝ) ≤ x :=
    le_of_lt (lt_of_lt_of_le zero_lt_one ((le_max_left 1 a).trans hx.le))
  rw [gamma_above, if_pos ha, if_pos hx0, if_neg (not_le.mpr hx)]

theorem gamma_below_nondelegate (dep : ℕ) (a x : ℝ) (fuel : ℕ)
    (ha : 0 < a) (hx0 : 0 < x) (hle : x ≤ max 1 a) :
    gamma_below dep a x fuel = gamma_series a x fuel := by
  rw [gamma_below, if_pos ha, if_pos hx0.le, if_neg (ne_of_gt hx0),
    if_neg (not_lt.mpr hle)]

theorem gamma_below_zero (dep : ℕ) (a : ℝ) (fuel : ℕ) (ha : 0 < a) :
    gamma_below dep a 0 fuel = .val 0 := by
  rw [gamma_below, if_pos ha, if_pos le_rfl, if_pos rfl]

theorem gamma_above_delegate (dep : ℕ) (a x : ℝ) (fuel : ℕ) (ha : 0 < a)
    (hx : 0 ≤ x) (hle : x ≤ max 1 a) (hdep : 1 ≤ dep) :
    gamma_above dep a x fuel = (gamma_below (dep - 1) a x fuel).map (fun g => 1 - g) := by
  rw [gamma_above, if_pos ha, if_pos hx, if_pos hle, if_neg (by omega : ¬dep = 0)]

theorem gamma_below_delegate (dep : ℕ) (a x : ℝ) (fuel : ℕ) (ha : 0 < a)
    (hx : max 1 a < x) (hdep : 1 ≤ dep) :
    gamma_below dep a x fuel = (gamma_above (dep - 1) a x fuel).map (fun g => 1 - g) := by
  have hx0 : (0 : ℝ) < x := lt_of_lt_of_le zero_lt_one ((le_max_left 1 a).trans hx.le)
  rw [gamma_below, if_pos ha, if_pos hx0.le, if_neg (ne_of_gt hx0), if_pos hx,
    if_neg (by omega : ¬dep = 0)]

/-- C1: for `a > 0`, `x ≥ 0`, whenever both routines return a value, the
two values sum to exactly 1: whichever regime `x` is in, one routine
returns literally `1 -` the other's result. -/
theorem gamma_below_above_sum_one (dep fuel : ℕ) (a x y z : ℝ)
    (ha : 0 < a) (hx : 0 ≤ x) (hdep : 1 ≤ dep)
    (hy : gamma_below dep a x fuel = .val y)
    (hz : gamma_above dep a x fuel = .val z) :
    y + z = 1 := by
  rcases eq_or_lt_of_le hx with hx0 | hx0
  · subst hx0
    rw [gamma_below_zero dep a fuel ha] at hy
    injection hy with hy
    rw [gamma_above_delegate dep a 0 fuel ha le_rfl
        (zero_le_one.trans (le_max_left 1 a)) hdep,
      gamma_below_zero (dep - 1) a fuel ha] at hz
    simp only [Outcome.map] at hz
    injection hz with hz
    linarith
  · rcases le_or_lt x (max 1 a) with hle | hgt
    · rw [gamma_below_nondelegate dep a x fuel ha hx0 hle] at hy
      rw [gamma_above_delegate dep a x fuel ha hx hle hdep,
        gamma_below_nondelegate (dep - 1) a x fuel ha hx0 hle, hy] at hz
      simp only [Outcome.map] at hz
      injection hz with hz
      linarith
    · rw [gamma_above_nondelegate dep a x fuel ha hgt] at hz
      rw [gamma_below_delegate dep a x fuel ha hgt hdep,
        gamma_above_nondelegate (dep - 1) a x fuel ha hgt, hz] at hy
      simp only [Outcome.map] at hy
      injection hy with hy
      linarith

theorem gamma_below_above_sum_one_witness : (0 : ℝ) + 1 = 1 := by
  have h1 : gamma_below 1 1 0 0 = .val 0 := gamma_below_zero 1 1 0 one_pos
  have h2 : gamma_above 1 1 0 0 = .val 1 := by
    rw [gamma_above_delegate 1 1 0 0 one_pos le_rfl (by norm_num) le_rfl,
      gamma_below_zero 0 1 0 one_pos]
    simp [Outcome.map]
  exact gamma_below_above_sum_one 1 0 1 0 0 1 one_pos le_rfl le_rfl h1 h2

/-- C2: for every `a > 0`, `gamma_below(a, 0)` returns exactly `0` (the
`x == 0` early return) and `gamma_above(a, 0)` returns exactly `1` (via
`1 - gamma_below(a, 0)`). -/
theorem gamma_at_zero (dep fuel : ℕ) (a : ℝ) (ha : 0 < a) (hdep : 1 ≤ dep) :
    gamma_below dep a 0 fuel = .val 0 ∧ gamma_above dep a 0 fuel = .val 1 := by
  refine ⟨gamma_below_zero dep a fuel ha, ?_⟩
  rw [gamma_above_delegate dep a 0 fuel ha le_rfl
      (zero_le_one.trans (le_max_left 1 a)) hdep,
    gamma_below_zero (dep - 1) a fuel ha]
  simp [Outcome.map]

theorem gamma_at_zero_witness :
    gamma_below 1 2 0 0 = .val 0 ∧ gamma_above 1 2 0 0 = .val 1 :=
  gamma_at_zero 1 0 2 two_pos le_rfl

/-- C3: in the non-delegating branch of `gamma_above` (`x > max(1, a)`),
when the prefactor exponent `w = a·log x - x - lgamma a` is strictly
below `-MAXLOG`, the routine returns exactly `0` without evaluating the
continued fraction (the result does not depend on `fuel`, which may even
be `0`), and `gamma_below` correspondingly returns `1`. -/
theorem gamma_above_underflow (dep fuel : ℕ) (a x : ℝ) (ha : 0 < a)
    (hx : max 1 a < x)
    (hw : a * Real.log x - x - Real.log |Real.Gamma a| < -MAXLOG)
    (hdep : 1 ≤ dep) :
    gamma_above dep a x fuel = .val 0 ∧ gamma_below dep a x fuel = .val 1 := by
  have hfrac : gamma_frac a x fuel = .val 0 := by
    simp only [gamma_frac]
    rw [if_pos hw]
  constructor
  · rw [gamma_above_nondelegate dep a x fuel ha hx]
    exact hfrac
  · rw [gamma_below_delegate dep a x fuel ha hx hdep,
      gamma_above_nondelegate (dep - 1) a x fuel ha hx, hfrac]
    simp [Outcome.map]

theorem gamma_above_underflow_witness :
    gamma_above 1 1 5000 0 = .val 0 ∧ gamma_below 1 1 5000 0 = .val 1 := by
  have hmax : max (1 : ℝ) 1 < 5000 := by norm_num
  have hlog2 : Real.log 2 ≤ 1 := by
    have h := Real.log_le_sub_one_of_pos (by norm_num : (0 : ℝ) < 2)
    linarith
  have hlog5000 : Real.log 5000 < 9 := by
    rw [Real.log_lt_iff_lt_exp (by norm_num : (0 : ℝ) < 5000)]
    calc (5000 : ℝ) < 2.7182818283 ^ (9 : ℕ) := by norm_num
      _ < Real.exp 1 ^ (9 : ℕ) :=
        pow_lt_pow_left₀ Real.exp_one_gt_d9 (by norm_num) (by norm_num)
      _ = Real.exp 9 := by rw [← Real.exp_nat_mul]; norm_num
  have hw : (1 : ℝ) * Real.log 5000 - 5000 - Real.log |Real.Gamma 1| < -MAXLOG := by
    rw [Real.Gamma_one, abs_one, Real.log_one, MAXLOG, EMAX, Real.log_pow]
    push_cast
    linarith
  exact gamma_above_underflow 1 0 1 5000 one_pos hmax hw le_rfl

/-- C4: for `a > 0`, `x ≥ 0` the branch conditions of `gamma_below`
(delegate iff `x > max(1, a)`) and `gamma_above` (delegate iff
`x ≤ max(1, a)`) are strict complements, so a single unit of mutual
delegation budget suffices: the results are those at budget 1 and the
budget is never exhausted (no infinite mutual recursion). -/
theorem gamma_delegation_terminates (dep fuel : ℕ) (a x : ℝ)
    (ha : 0 < a) (hx : 0 ≤ x) (hdep : 1 ≤ dep) :
    ((max 1 a < x) ↔ ¬(x ≤ max 1 a)) ∧
    gamma_below dep a x fuel = gamma_below 1 a x fuel ∧
    gamma_above dep a x fuel = gamma_above 1 a x fuel ∧
    gamma_below dep a x fuel ≠ .depthOut ∧
    gamma_above dep a x fuel ≠ .depthOut := by
  refine ⟨not_le.symm, ?_⟩
  rcases eq_or_lt_of_le hx with hx0 | hx0
  · subst hx0
    have hb : ∀ d, gamma_below d a 0 fuel = .val 0 := fun d =>
      gamma_below_zero d a fuel ha
    have hble : (0 : ℝ) ≤ max 1 a := zero_le_one.trans (le_max_left 1 a)
    have hab : ∀ d, 1 ≤ d → gamma_above d a 0 fuel = .val 1 := by
      intro d hd
      rw [gamma_above_delegate d a 0 fuel ha le_rfl hble hd, hb]
      simp [Outcome.map]
    refine ⟨by rw [hb dep, hb 1], by rw [hab dep hdep, hab 1 le_rfl], ?_, ?_⟩
    · rw [hb dep]; simp
    · rw [hab dep hdep]; simp
  · rcases le_or_lt x (max 1 a) with hle | hgt
    · have hb : ∀ d, gamma_below d a x fuel = gamma_series a x fuel := fun d =>
        gamma_below_nondelegate d a x fuel ha hx0 hle
      have hab : ∀ d, 1 ≤ d →
          gamma_above d a x fuel = (gamma_series a x fuel).map (fun g => 1 - g) := by
        intro d hd
        rw [gamma_above_delegate d a x fuel ha hx hle hd, hb]
      refine ⟨by rw [hb dep, hb 1], by rw [hab dep hdep, hab 1 le_rfl], ?_, ?_⟩
      · rw [hb dep]
        exact gamma_series_ne_depthOut a x fuel
      · rw [hab dep hdep]
        intro hc
        rw [Outcome.map_eq_depthOut_iff] at hc
        exact gamma_series_ne_depthOut a x fuel hc
    · have hab : ∀ d, gamma_above d a x fuel = gamma_frac a x fuel := fun d =>
        gamma_above_nondelegate d a x fuel ha hgt
      have hb : ∀ d, 1 ≤ d →
          gamma_below d a x fuel = (gamma_frac a x fuel).map (fun g => 1 - g) := by
        intro d hd
        rw [gamma_below_delegate d a x fuel ha hgt hd, hab]
      refine ⟨by rw [hb dep hdep, hb 1 le_rfl], by rw [hab dep, hab 1], ?_, ?_⟩
      · rw [hb dep hdep]
        intro hc
        rw [Outcome.map_eq_depthOut_iff] at hc
        exact gamma_frac_ne_depthOut a x fuel hc
      · rw [hab dep]
        exact gamma_frac_ne_depthOut a x fuel

theorem contStep_no_rescale (epsinv eps : ℚ) (st : ℚ × ℚ × ℚ × ℚ) (t : ℚ × ℚ)
    (h : ¬(epsinv ≤ t.2 * st.2.2.1 + t.1 * st.1 ∨
      epsinv ≤ t.2 * st.2.2.2 + t.1 * st.2.1)) :
    contStep epsinv eps st t =
      (st.2.2.1, st.2.2.2, t.2 * st.2.2.1 + t.1 * st.1,
        t.2 * st.2.2.2 + t.1 * st.2.1) := by
  simp only [contStep]
  rw [if_neg h]

theorem continuants_state_spec (seq : ℕ → ℚ × ℚ) :
    ∀ k, (∀ i, i ≤ k → ¬rescaleTrigger EPSINV EPSILON seq i) →
      contState EPSINV EPSILON seq (k + 1) =
        (specContinuantP seq (k + 1), specContinuantQ seq (k + 1),
          specContinuantP seq (k + 2), specContinuantQ seq (k + 2)) := by
  intro k
  induction k with
  | zero =>
    intro h
    have h0 := h 0 le_rfl
    simp only [rescaleTrigger] at h0
    show contStep EPSINV EPSILON (contState EPSINV EPSILON seq 0) (seq 0) = _
    rw [contStep_no_rescale EPSINV EPSILON _ (seq 0) h0]
    simp [contState, specContinuantP, specContinuantQ]
  | succ n ih =>
    intro h
    have hn := h (n + 1) le_rfl
    simp only [rescaleTrigger] at hn
    show contStep EPSINV EPSILON (contState EPSINV EPSILON seq (n + 1)) (seq (n + 1)) = _
    rw [contStep_no_rescale EPSINV EPSILON _ (seq (n + 1)) hn,
      ih (fun i hi => le_trans hi (Nat.le_succ n) |> h i)]
    simp [specContinuantP, specContinuantQ]

/-- C6: as long as the rescale guard does not fire, the `continuants`
generator realizes exactly the spec's three-term recurrence seeded with
`(p_{-1}, q_{-1}) = (1, 0)`, `(p_0, q_0) = (0, 1)`: the state after each
consumed term `(n, d)` is `(p, q, d*p + n*p0, d*q + n*q0)` with the old
current pair as the new previous pair; in particular the first yielded
continuant is `(n_0, d_0)`. -/
theorem continuants_match_spec_recurrence (seq : ℕ → ℚ × ℚ) (k : ℕ)
    (h : ∀ i, i ≤ k → ¬rescaleTrigger EPSINV EPSILON seq i) :
    continuantAt EPSINV EPSILON seq k =
      (specContinuantP seq (k + 2), specContinuantQ seq (k + 2)) ∧
    continuantAt EPSINV EPSILON seq 0 = seq 0 := by
  constructor
  · have hstate := continuants_state_spec seq k h
    simp [continuantAt, hstate]
  · have h0 := continuants_state_spec seq 0 (fun i hi => h i (le_trans hi (Nat.zero_le k)))
    simp [continuantAt, h0, specContinuantP, specContinuantQ]

theorem continuants_match_spec_recurrence_witness :
    continuantAt EPSINV EPSILON (fun _ => ((1 : ℚ), 1)) 1 =
      (specContinuantP (fun _ => ((1 : ℚ), 1)) 3,
        specContinuantQ (fun _ => ((1 : ℚ), 1)) 3) ∧
    continuantAt EPSINV EPSILON (fun _ => ((1 : ℚ), 1)) 0 = (fun _ => ((1 : ℚ), 1)) 0 :=
  continuants_match_spec_recurrence (fun _ => ((1 : ℚ), 1)) 1 (by
    intro i hi
    interval_cases i <;>
      norm_num [rescaleTrigger, contState, contStep, EPSINV, EPSILON])

/-- C7: evaluating the code at the failing input.  On the term stream
whose first term is `(n, d) = (-2^52, 1)` the first continuant is
`(p, q) = (-2^52, 1)`, whose component `p` has magnitude
`|p| = 2^52 ≥ EPSINV`, yet it is yielded unrescaled: the guard compares
the signed components (`p >= EPSINV or q >= EPSINV`), not their
magnitudes as the spec (and the function's own docstring) state. -/
theorem continuants_negative_magnitude_no_rescale :
    continuantAt EPSINV EPSILON (fun _ => ((-(2 ^ 52) : ℚ), 1)) 0 = (-(2 ^ 52), 1) ∧
    EPSINV ≤ |(-(2 ^ 52) : ℚ)| := by
  constructor
  · norm_num [continuantAt, contState, contStep, EPSINV, EPSILON]
  · norm_num [EPSINV]

theorem convRun_looping (cs : ℕ → ℚ × ℚ) :
    ∀ j, (∀ i, 1 ≤ i → i ≤ j → (cs i).1 ≠ 0) →
      convRun cs j = (.looping (cs j).1 (cs j).2, (cs j).1 / (cs j).2) := by
  intro j
  induction j with
  | zero => intro _; simp [convRun]
  | succ n ih =>
    intro h
    have hprev := ih (fun i h1 h2 => h i h1 (le_trans h2 (Nat.le_succ n)))
    simp only [convRun, hprev]
    rw [if_neg (h (n + 1) (by omega) le_rfl)]

theorem convRun_done_from (cs : ℕ → ℚ × ℚ) (m : ℕ) (hm : 1 ≤ m)
    (hz : (cs m).1 = 0) (hnz : ∀ i, 1 ≤ i → i < m → (cs i).1 ≠ 0) :
    ∀ j, m ≤ j →
      convRun cs j = (.done ((cs (m - 1)).1 / (cs (m - 1)).2),
        (cs (m - 1)).1 / (cs (m - 1)).2) := by
  have hbase : convRun cs m = (.done ((cs (m - 1)).1 / (cs (m - 1)).2),
      (cs (m - 1)).1 / (cs (m - 1)).2) := by
    obtain ⟨m0, rfl⟩ : ∃ m0, m = m0 + 1 := ⟨m - 1, by omega⟩
    have hprev := convRun_looping cs m0 (fun i h1 h2 => hnz i h1 (by omega))
    simp only [convRun, hprev]
    rw [if_pos hz]
    simp
  intro j hj
  induction j, hj using Nat.le_induction with
  | base => exact hbase
  | succ n hn ih => simp only [convRun, ih]

/-- C8: (given that the `assert q != 0` of the underlying continuants
passes up to output `j`) the `convergents` generator yields the first
continuant's ratio unconditionally; as long as every consumed continuant
has nonzero numerator it yields that continuant's ratio `p/q`; and from
the first continuant with numerator exactly `0` onwards it is in the
`done` state — it consumes no further continuants and every later output
equals the last retained ratio. -/
theorem convergents_terminating_behavior (seq : ℕ → ℚ × ℚ) (j : ℕ)
    (hok : contOk EPSINV EPSILON seq j) :
    convergents EPSINV EPSILON seq 0 =
      (continuantAt EPSINV EPSILON seq 0).1 / (continuantAt EPSINV EPSILON seq 0).2 ∧
    ((∀ i, 1 ≤ i → i ≤ j → (continuantAt EPSINV EPSILON seq i).1 ≠ 0) →
      convergents EPSINV EPSILON seq j =
        (continuantAt EPSINV EPSILON seq j).1 / (continuantAt EPSINV EPSILON seq j).2) ∧
    (∀ m, 1 ≤ m → m ≤ j → (continuantAt EPSINV EPSILON seq m).1 = 0 →
      (∀ i, 1 ≤ i → i < m → (continuantAt EPSINV EPSILON seq i).1 ≠ 0) →
      convergents EPSINV EPSILON seq j =
        (continuantAt EPSINV EPSILON seq (m - 1)).1 /
          (continuantAt EPSINV EPSILON seq (m - 1)).2 ∧
      (convRun (fun i => continuantAt EPSINV EPSILON seq i) j).1 =
        .done ((continuantAt EPSINV EPSILON seq (m - 1)).1 /
          (continuantAt EPSINV EPSILON seq (m - 1)).2)) := by
  refine ⟨rfl, ?_, ?_⟩
  · intro hnz
    unfold convergents
    rw [convRun_looping (fun i => continuantAt EPSINV EPSILON seq i) j hnz]
  · intro m hm1 hmj hz hnz
    have hdone := convRun_done_from (fun i => continuantAt EPSINV EPSILON seq i)
      m hm1 hz hnz j hmj
    constructor
    · unfold convergents
      rw [hdone]
    · rw [hdone]

theorem convergents_terminating_behavior_witness :
    convergents EPSINV EPSILON (fun _ => ((1 : ℚ), 1)) 2 = 2 / 3 := by
  have hok : contOk EPSINV EPSILON (fun _ => ((1 : ℚ), 1)) 2 := by
    intro i hi
    interval_cases i <;>
      norm_num [continuantAt, contState, contStep, EPSINV, EPSILON]
  have hnz : ∀ i, 1 ≤ i → i ≤ 2 →
      (continuantAt EPSINV EPSILON (fun _ => ((1 : ℚ), 1)) i).1 ≠ 0 := by
    intro i h1 h2
    interval_cases i <;>
      norm_num [continuantAt, contState, contStep, EPSINV, EPSILON]
  have h := (convergents_terminating_behavior (fun _ => ((1 : ℚ), 1)) 2 hok).2.1 hnz
  rw [h]
  norm_num [continuantAt, contState, contStep, EPSINV, EPSILON]

/-- C5 counterexample: at `expected = -2`, `actual = -1` the code returns
`abs((-1 - -2) / (-2)) = 1/2`, which differs from the claimed formula
`|actual - expected| / expected = 1 / (-2) = -1/2` (the code divides by
the magnitude of `expected`, not its signed value). -/
theorem relerr_signed_denominator_cex :
    relerr (-2 : ℚ) (-1) = 1 / 2 ∧
    relerr (-2 : ℚ) (-1) ≠ |(-1 : ℚ) - (-2)| / (-2) := by
  norm_num [relerr]

/-- C5 (amended): for every pair with nonzero `expected`, `relerr` returns
`|actual - expected| / |expected|` — the absolute value applies to the
whole quotient `abs((actual - expected)/expected)`, so the division is by
the magnitude of `expected`, not the signed value; in particular
`relerr(2, 2.0002) = 0.0001` exactly. -/
theorem relerr_abs_quotient :
    (∀ e a : ℚ, e ≠ 0 → relerr e a = |a - e| / |e|) ∧
    relerr (2 : ℚ) (10001 / 5000) = 1 / 10000 := by
  constructor
  · intro e a _
    rw [relerr, abs_div]
  · norm_num [relerr]

theorem relerr_abs_quotient_witness :
    relerr (3 : ℚ) (-6) = |(-6 : ℚ) - 3| / |(3 : ℚ)| :=
  relerr_abs_quotient.1 3 (-6) (by norm_num)

theorem sumTo_zero (l : List ℚ) (t : ℚ) (h : l.get? 0 = some t) :
    sumTo l 0 = t := by
  cases l with
  | nil => simp at h
  | cons a l =>
    simp only [List.get?] at h
    injection h with h
    simp [sumTo, h]

theorem sumTo_step (l : List ℚ) (k : ℕ) (t : ℚ) (h : l.get? (k + 1) = some t) :
    sumTo l (k + 1) = sumTo l k + t := by
  have h2 : l[k + 1]? = some t := by simpa using h
  simp [sumTo, List.take_succ, h2, add_assoc]

theorem absLoop_negative_assertFail (l : List ℚ) (eps : ℚ) (j : ℕ) (tj : ℚ)
    (hj : l.get? j = some tj) (hneg : tj < 0)
    (hpre : ∀ k t, 1 ≤ k → k < j → l.get? k = some t →
      0 ≤ t ∧ ¬(t / sumTo l k ≤ eps)) :
    ∀ (fuel i : ℕ), i + 1 ≤ j → j < i + 1 + fuel →
      absLoop eps (seqOfList l) (i + 1) (sumTo l i) fuel = .assertFail := by
  intro fuel
  induction fuel with
  | zero => intro i h1 h2; omega
  | succ f ih =>
    intro i h1 h2
    have hjlen : j < l.length := List.get?_eq_some.mp hj |>.1
    have hilen : i + 1 < l.length := lt_of_le_of_lt h1 hjlen
    have hti : l.get? (i + 1) = some (l.get ⟨i + 1, hilen⟩) := List.get?_eq_get hilen
    simp only [absLoop, seqOfList, hti]
    rcases eq_or_lt_of_le h1 with heq | hlt
    · have h3 : l.get? (i + 1) = some tj := by rw [heq]; exact hj
      have htj : l.get ⟨i + 1, hilen⟩ = tj := Option.some.inj (hti.symm.trans h3)
      have hlt0 : l.get ⟨i + 1, hilen⟩ < 0 := by rw [htj]; exact hneg
      rw [if_neg (not_le.mpr hlt0)]
    · obtain ⟨hpos, hpred⟩ := hpre (i + 1) (l.get ⟨i + 1, hilen⟩) (by omega) hlt hti
      rw [if_pos hpos,
        show sumTo l i + l.get ⟨i + 1, hilen⟩ = sumTo l (i + 1) from
          (sumTo_step l i (l.get ⟨i + 1, hilen⟩) hti).symm,
        if_neg hpred]
      exact ih (i + 1) (by omega) (by omega)

/-- C9 counterexample: `abs_summation` on the sequence `[-1, 1/2]`, which
contains a negative term reached before the stopping predicate ever holds
(it is the very first term consumed), does not abort: it returns the value
`-1/2`.  The initial `s = sequence.next()` is consumed before the
`assert 0 <= t` check, so a negative *first* term is never checked. -/
theorem abs_summation_negative_first_term_cex :
    seqOfList [(-1 : ℚ), 1 / 2] 0 = some (-1) ∧ (-1 : ℚ) < 0 ∧
    abs_summation EPSILON (seqOfList [(-1 : ℚ), 1 / 2]) 5 = .val (-(1 / 2)) := by
  refine ⟨rfl, by norm_num, ?_⟩
  norm_num [abs_summation, absLoop, seqOfList, EPSILON]

/-- C9 (amended): `abs_summation` aborts with an assertion failure
whenever some term at a position `≥ 1` (any term other than the first,
which is consumed as the initial sum without the nonnegativity check) is
negative and is reached by the loop, i.e. all terms strictly between the
first and it are nonnegative and never satisfy the stopping predicate
`t / s ≤ EPSILON`. -/
theorem abs_summation_negative_tail_assertFail (l : List ℚ) (eps : ℚ)
    (j fuel : ℕ) (tj : ℚ) (hj1 : 1 ≤ j) (hj : l.get? j = some tj)
    (hneg : tj < 0)
    (hpre : ∀ k t, 1 ≤ k → k < j → l.get? k = some t →
      0 ≤ t ∧ ¬(t / sumTo l k ≤ eps))
    (hfuel : j ≤ fuel) :
    abs_summation eps (seqOfList l) fuel = .assertFail := by
  have hlen : 0 < l.length := by
    have := List.get?_eq_some.mp hj |>.1
    omega
  have h0 : l.get? 0 = some (l.get ⟨0, hlen⟩) := List.get?_eq_get hlen
  have hrun : abs_summation eps (seqOfList l) fuel =
      absLoop eps (seqOfList l) 1 (l.get ⟨0, hlen⟩) fuel := by
    rw [abs_summation, show seqOfList l 0 = some (l.get ⟨0, hlen⟩) from h0]
  rw [hrun, show l.get ⟨0, hlen⟩ = sumTo l 0 from (sumTo_zero l _ h0).symm]
  exact absLoop_negative_assertFail l eps j tj hj hneg hpre fuel 0 (by omega) (by omega)

theorem abs_summation_negative_tail_assertFail_witness :
    abs_summation EPSILON (seqOfList [(1 : ℚ), -1]) 1 = .assertFail :=
  abs_summation_negative_tail_assertFail [(1 : ℚ), -1] EPSILON 1 1 (-1) le_rfl rfl
    (by norm_num) (fun k t hk1 hk _ => absurd hk1 (by omega)) le_rfl

theorem absLoop_exhausts (l : List ℚ) (eps : ℚ) :
    ∀ (fuel i : ℕ) (s : ℚ), l.length < i + fuel → 1 ≤ fuel →
      (∃ v, absLoop eps (seqOfList l) i s fuel = .val v) ∨
      absLoop eps (seqOfList l) i s fuel = .assertFail ∨
      absLoop eps (seqOfList l) i s fuel = .retNone := by
  intro fuel
  induction fuel with
  | zero => intro i s _ h1; omega
  | succ f ih =>
    intro i s hbound _
    cases hseq : l.get? i with
    | none =>
      simp only [absLoop, seqOfList, hseq]
      tauto
    | some t =>
      have hi : i < l.length := List.get?_eq_some.mp hseq |>.1
      simp only [absLoop, seqOfList, hseq]
      split_ifs with h1 h2
      · exact Or.inl ⟨s + t, rfl⟩
      · exact ih (i + 1) (s + t) (by omega) (by omega)
      · tauto

theorem limitLoop_exhausts (l : List ℚ) (eps : ℚ) :
    ∀ (fuel i : ℕ) (c0 : ℚ), l.length < i + fuel → 1 ≤ fuel →
      (∃ v, limitLoop eps (seqOfList l) i c0 fuel = .val v) ∨
      limitLoop eps (seqOfList l) i c0 fuel = .retNone := by
  intro fuel
  induction fuel with
  | zero => intro i c0 _ h1; omega
  | succ f ih =>
    intro i c0 hbound _
    cases hseq : l.get? i with
    | none =>
      simp only [limitLoop, seqOfList, hseq]
      tauto
    | some c =>
      have hi : i < l.length := List.get?_eq_some.mp hseq |>.1
      simp only [limitLoop, seqOfList, hseq]
      split_ifs with h1 h2
      · exact Or.inl ⟨c, rfl⟩
      · exact Or.inl ⟨c, rfl⟩
      · exact ih (i + 1) c (by omega) (by omega)

/-- C10 (implicit): on a finite nonempty sequence that becomes exhausted
before the stopping predicate is ever satisfied (given fuel covering the
whole list, the run neither returns a value nor — for `abs_summation` —
hits the assertion), both `abs_summation` and `limit` terminate normally
but return Python `None` rather than the accumulated sum / last element. -/
theorem exhausted_sequence_returns_none (l : List ℚ) (eps : ℚ) (fuel : ℕ)
    (hne : l ≠ []) (hfuel : l.length ≤ fuel)
    (habs : ∀ v, abs_summation eps (seqOfList l) fuel ≠ .val v)
    (hassert : abs_summation eps (seqOfList l) fuel ≠ .assertFail)
    (hlim : ∀ v, limit eps (seqOfList l) fuel ≠ .val v) :
    abs_summation eps (seqOfList l) fuel = .retNone ∧
    limit eps (seqOfList l) fuel = .retNone := by
  have hlen : 0 < l.length := List.length_pos.mpr hne
  have h0 : l.get? 0 = some (l.get ⟨0, hlen⟩) := List.get?_eq_get hlen
  constructor
  · have hrun : abs_summation eps (seqOfList l) fuel =
        absLoop eps (seqOfList l) 1 (l.get ⟨0, hlen⟩) fuel := by
      rw [abs_summation, show seqOfList l 0 = some (l.get ⟨0, hlen⟩) from h0]
    rcases absLoop_exhausts l eps fuel 1 (l.get ⟨0, hlen⟩) (by omega) (by omega) with
      ⟨v, hv⟩ | hv | hv
    · exact absurd (hrun.trans hv) (habs v)
    · exact absurd (hrun.trans hv) hassert
    · exact hrun.trans hv
  · have hrun : limit eps (seqOfList l) fuel =
        limitLoop eps (seqOfList l) 1 (l.get ⟨0, hlen⟩) fuel := by
      rw [limit, show seqOfList l 0 = some (l.get ⟨0, hlen⟩) from h0]
    rcases limitLoop_exhausts l eps fuel 1 (l.get ⟨0, hlen⟩) (by omega) (by omega) with
      ⟨v, hv⟩ | hv
    · exact absurd (hrun.trans hv) (hlim v)
    · exact hrun.trans hv

theorem exhausted_sequence_returns_none_witness :
    abs_summation EPSILON (seqOfList [(1 : ℚ), 5]) 2 = .retNone ∧
    limit EPSILON (seqOfList [(1 : ℚ), 5]) 2 = .retNone := by
  have habs : abs_summation EPSILON (seqOfList [(1 : ℚ), 5]) 2 = .retNone := by
    norm_num [abs_summation, absLoop, seqOfList, EPSILON]
  have hlim : limit EPSILON (seqOfList [(1 : ℚ), 5]) 2 = .retNone := by
    norm_num [limit, limitLoop, relerr, seqOfList, EPSILON]
  exact exhausted_sequence_returns_none [(1 : ℚ), 5] EPSILON 2 (by simp) (by simp)
    (fun v h => by rw [habs] at h; exact Outcome.noConfusion h)
    (by rw [habs]; exact fun h => Outcome.noConfusion h)
    (fun v h => by rw [hlim] at h; exact Outcome.noConfusion h)

theorem gamma_delegation_terminates_witness :
    ((max 1 (1 : ℝ) < 3) ↔ ¬((3 : ℝ) ≤ max 1 1)) ∧
    gamma_below 2 1 3 0 = gamma_below 1 1 3 0 ∧
    gamma_above 2 1 3 0 = gamma_above 1 1 3 0 ∧
    gamma_below 2 1 3 0 ≠ .depthOut ∧
    gamma_above 2 1 3 0 ≠ .depthOut :=
  gamma_delegation_terminates 2 0 1 3 one_pos (by norm_num) (by norm_num)
